import Mathlib

/-!
Verification of the `memalloc` allocator (`src/memalloc.c`).

The C program manages a single heap region grown and shrunk with `sbrk`,
threading a singly-linked list of block headers (`union header`) through the
heap.  Two embeddings are developed here:

* a functional model (`Memalloc`): the registry is the list of blocks in
  carve order (the order of the `next` chain), the heap boundary is an
  explicit `brk` with an OS limit, and payload bytes are a function
  `Nat → Nat`.  `size_t` arithmetic wraps modulo `2 ^ 64` exactly where the C
  expressions do.

* a pointer model (`Memalloc.Ptr`): the registry is a store of headers keyed
  by address together with the raw `head`/`tail` pointers, and the chain
  manipulations of `malloc` and `free` are transcribed pointer for pointer.
  This model settles the head/tail-consistency invariant that justifies the
  list abstraction of the functional model.

C behaviour that is undefined (dereferencing the header of a pointer that was
never returned by the allocator) is modelled as leaving the state unchanged;
every theorem about such paths carries a validity hypothesis instead.
-/

namespace Memalloc

/-- `sizeof(union header)` on an LP64 platform: the struct member
`{size_t; unsigned; union header *}` occupies 8 + 4 (+4 padding) + 8 = 24
bytes, which dominates the 16-byte `ALIGN` stub. -/
def headerSize : Nat := 24

/-- Modulus of `size_t` arithmetic (64-bit). -/
def SIZE_MOD : Nat := 2 ^ 64

/-- One registry entry: the data of `union header` that survives abstraction.
`addr` is the address of the header itself; the payload starts at
`addr + headerSize`.  The `next` link is represented by list order. -/
structure Block where
  addr : Nat
  size : Nat
  is_free : Bool
deriving DecidableEq, Repr

/-- Allocator state: `blocks` is the registry chain from `head` to `tail` in
link order; `brk` is the current program break; `limit` is the largest break
the OS will grant (an `sbrk` growing past it fails); `base` is the initial
break; `mem a` is the byte stored at address `a`. -/
structure AllocState where
  base : Nat
  brk : Nat
  limit : Nat
  blocks : List Block
  mem : Nat → Nat

/-- `get_free_block` (memalloc.c:36-45): first block in chain order with
`is_free` set and recorded size at least the request. -/
def get_free_block (bs : List Block) (size : Nat) : Option Block :=
  bs.find? (fun b => b.is_free && decide (size ≤ b.size))

/-- Flip the `is_free` field of the block whose header sits at `a`. -/
def setFree (bs : List Block) (a : Nat) (v : Bool) : List Block :=
  bs.map (fun b => if b.addr = a then { b with is_free := v } else b)

/-- Locate the header `(header_t *)p - 1` of payload pointer `p`: the registry
block whose payload address is `p`. -/
def findBlock (bs : List Block) (p : Nat) : Option Block :=
  bs.find? (fun b => b.addr + headerSize == p)

/-- `malloc` (memalloc.c:102-144).  Returns the payload address (or `none`)
and the successor state.  `total_size = sizeof(header_t) + size` is `size_t`
arithmetic and so is reduced mod `2 ^ 64`; `sbrk(total_size)` succeeds iff the
grown break stays within `limit`, returning the previous break as the base of
the new block. -/
def malloc (s : AllocState) (size : Nat) : Option Nat × AllocState :=
  if size = 0 then (none, s)
  else
    match get_free_block s.blocks size with
    | some b =>
        (some (b.addr + headerSize), { s with blocks := setFree s.blocks b.addr false })
    | none =>
        let total_size := (headerSize + size) % SIZE_MOD
        if s.brk + total_size ≤ s.limit then
          (some (s.brk + headerSize),
           { s with
               brk := s.brk + total_size,
               blocks := s.blocks ++ [{ addr := s.brk, size := size, is_free := false }] })
        else (none, s)

/-- `free` (memalloc.c:53-94).  A null pointer is a no-op.  Otherwise the
header right before `p` is read; if the payload end coincides with the current
break, the code unlinks the tail of the chain (`head == tail` empties the
registry, otherwise the walk from `head` makes the second-to-last node the new
`tail`) and shrinks the heap by `size + sizeof(header_t)`; otherwise it only
marks the block free. -/
def free (s : AllocState) (p : Option Nat) : AllocState :=
  match p with
  | none => s
  | some p =>
      match findBlock s.blocks p with
      | none => s
      | some b =>
          if p + b.size = s.brk then
            { s with blocks := s.blocks.dropLast, brk := s.brk - (b.size + headerSize) }
          else
            { s with blocks := setFree s.blocks b.addr true }

/-- `memset(p, 0, n)` on the byte memory. -/
def memsetZero (m : Nat → Nat) (p n : Nat) : Nat → Nat :=
  fun a => if p ≤ a ∧ a < p + n then 0 else m a

/-- `memcpy(dst, src, n)` on the byte memory. -/
def memcpy (m : Nat → Nat) (dst src n : Nat) : Nat → Nat :=
  fun a => if dst ≤ a ∧ a < dst + n then m (src + (a - dst)) else m a

/-- `calloc` (memalloc.c:152-172): zero-argument guard, `size_t` product with
the division-based overflow check, delegation to `malloc`, then `memset`. -/
def calloc (s : AllocState) (num nsize : Nat) : Option Nat × AllocState :=
  if num = 0 ∨ nsize = 0 then (none, s)
  else
    let size := (num * nsize) % SIZE_MOD
    if nsize ≠ size / num then (none, s)
    else
      match malloc s size with
      | (none, s') => (none, s')
      | (some p, s') => (some p, { s' with mem := memsetZero s'.mem p size })

/-- `realloc` (memalloc.c:179-200): null pointer or zero size behaves as
`malloc`; a recorded size already covering the request returns the pointer
unchanged; otherwise allocate, copy `header->s.size` bytes, free the old
block, and return the new pointer (or `none` with the old block untouched when
the allocation failed). -/
def realloc (s : AllocState) (p : Option Nat) (size : Nat) : Option Nat × AllocState :=
  match p with
  | none => malloc s size
  | some pp =>
      if size = 0 then malloc s size
      else
        match findBlock s.blocks pp with
        | none => (none, s)
        | some b =>
            if size ≤ b.size then (some pp, s)
            else
              match malloc s size with
              | (none, s') => (none, s')
              | (some ret, s') =>
                  (some ret, free { s' with mem := memcpy s'.mem ret pp b.size } (some pp))

/-- Every block lies inside the OS-granted heap `[base, brk)`. -/
def Bounded (s : AllocState) : Prop :=
  ∀ b ∈ s.blocks, s.base ≤ b.addr ∧ b.addr + headerSize + b.size ≤ s.brk

/-- Two blocks occupy separated address ranges: the first (header plus
payload) ends no later than the second's header starts. -/
def sep (a b : Block) : Prop := a.addr + headerSize + a.size ≤ b.addr

/-- Consecutive chain entries occupy separated address ranges. -/
def Separated (bs : List Block) : Prop :=
  bs.Chain' sep

/-- The registry invariant of reachable states: blocks lie in the granted
heap, consecutive blocks are separated, and the break never went below the
initial break. -/
def Inv (s : AllocState) : Prop := Bounded s ∧ Separated s.blocks ∧ s.base ≤ s.brk

/-- Chain addresses are strictly increasing. -/
def SortedAddr (bs : List Block) : Prop :=
  (bs.map Block.addr).Chain' (· < ·)

/-- The n-byte region at `p` lies inside the granted heap, past the header of
its block: the bytes a caller may write. -/
def Writable (s : AllocState) (p n : Nat) : Prop :=
  s.base + headerSize ≤ p ∧ p + n ≤ s.brk

instance (s : AllocState) : Decidable (Bounded s) :=
  inferInstanceAs (Decidable (∀ b ∈ s.blocks, s.base ≤ b.addr ∧ b.addr + headerSize + b.size ≤ s.brk))

instance : DecidableRel sep := fun a b =>
  inferInstanceAs (Decidable (a.addr + headerSize + a.size ≤ b.addr))

/-- Executable check for `List.Chain'`. -/
def chainB {α : Type} (r : α → α → Bool) : List α → Bool
  | [] => true
  | [_] => true
  | a :: b :: t => r a b && chainB r (b :: t)

theorem chainB_iff {α : Type} {R : α → α → Prop} [DecidableRel R] :
    ∀ l : List α, chainB (fun a b => decide (R a b)) l = true ↔ l.Chain' R
  | [] => by simp [chainB]
  | [a] => by simp [chainB]
  | a :: b :: t => by
      rw [chainB, Bool.and_eq_true, List.chain'_cons, chainB_iff (b :: t),
        decide_eq_true_iff]

instance (bs : List Block) : Decidable (Separated bs) :=
  decidable_of_iff _ (chainB_iff bs)

instance (s : AllocState) : Decidable (Inv s) :=
  inferInstanceAs (Decidable (Bounded s ∧ Separated s.blocks ∧ s.base ≤ s.brk))

instance (bs : List Block) : Decidable (SortedAddr bs) :=
  decidable_of_iff _ (chainB_iff (bs.map Block.addr))

instance (s : AllocState) (p n : Nat) : Decidable (Writable s p n) :=
  inferInstanceAs (Decidable (s.base + headerSize ≤ p ∧ p + n ≤ s.brk))

theorem headerSize_pos : 0 < headerSize := by decide

instance : IsTrans Block sep :=
  ⟨fun a b c hab hbc => by unfold sep at *; omega⟩

theorem sep_addr_lt {a b : Block} (h : sep a b) : a.addr < b.addr := by
  have := headerSize_pos; unfold sep at h; omega

theorem inv_pairwise_sep {s : AllocState} (h : Inv s) : s.blocks.Pairwise sep :=
  List.chain'_iff_pairwise.mp h.2.1

theorem sortedAddr_of_inv {s : AllocState} (h : Inv s) : SortedAddr s.blocks := by
  unfold SortedAddr
  rw [List.chain'_map]
  exact h.2.1.imp fun _ _ hab => sep_addr_lt hab

theorem addr_nodup {s : AllocState} (h : Inv s) : (s.blocks.map Block.addr).Nodup := by
  have hs := sortedAddr_of_inv h
  unfold SortedAddr at hs
  exact (List.chain'_iff_pairwise.mp hs).imp Nat.ne_of_lt

/-- `find?` returns the head of the suffix when everything before it fails
the predicate: the first-fit characterisation of a linear scan. -/
theorem find?_first {α : Type} (p : α → Bool) (l₁ : List α) (a : α) (l₂ : List α)
    (h₁ : ∀ x ∈ l₁, p x = false) (ha : p a = true) :
    (l₁ ++ a :: l₂).find? p = some a := by
  induction l₁ with
  | nil => simpa using List.find?_cons_of_pos _ ha
  | cons x xs ih =>
      have hx : p x = false := h₁ x (by simp)
      rw [List.cons_append, List.find?_cons_of_neg _ (by simp [hx])]
      exact ih fun y hy => h₁ y (by simp [hy])

theorem nodup_addr_split {bs l₁ l₂ : List Block} {b : Block}
    (hdec : bs = l₁ ++ b :: l₂) (hnd : (bs.map Block.addr).Nodup) :
    (∀ x ∈ l₁, x.addr ≠ b.addr) ∧ (∀ x ∈ l₂, x.addr ≠ b.addr) := by
  subst hdec
  rw [List.map_append, List.map_cons] at hnd
  have hmid := List.nodup_middle.mp hnd
  have hnotmem : b.addr ∉ l₁.map Block.addr ++ l₂.map Block.addr :=
    (List.nodup_cons.mp hmid).1
  constructor
  · intro x hx hxa
    exact hnotmem (by rw [← hxa]; exact List.mem_append_left _ (List.mem_map_of_mem _ hx))
  · intro x hx hxa
    exact hnotmem (by rw [← hxa]; exact List.mem_append_right _ (List.mem_map_of_mem _ hx))

theorem findBlock_decomp {bs l₁ l₂ : List Block} {b : Block}
    (hdec : bs = l₁ ++ b :: l₂) (hnd : (bs.map Block.addr).Nodup) :
    findBlock bs (b.addr + headerSize) = some b := by
  obtain ⟨h₁, _⟩ := nodup_addr_split hdec hnd
  subst hdec
  unfold findBlock
  apply find?_first
  · intro x hx
    have := h₁ x hx
    simp only [beq_eq_false_iff_ne, ne_eq]
    omega
  · simp

theorem setFree_eq_of_ne {bs : List Block} {a : Nat} {v : Bool}
    (h : ∀ x ∈ bs, x.addr ≠ a) : setFree bs a v = bs := by
  unfold setFree
  induction bs with
  | nil => rfl
  | cons x xs ih =>
      rw [List.map_cons, if_neg (h x (by simp)), ih fun y hy => h y (by simp [hy])]

theorem setFree_decomp {l₁ l₂ : List Block} {b : Block} {v : Bool}
    (h₁ : ∀ x ∈ l₁, x.addr ≠ b.addr) (h₂ : ∀ x ∈ l₂, x.addr ≠ b.addr) :
    setFree (l₁ ++ b :: l₂) b.addr v = l₁ ++ { b with is_free := v } :: l₂ := by
  unfold setFree
  rw [List.map_append, List.map_cons, if_pos rfl]
  have e₁ : setFree l₁ b.addr v = l₁ := setFree_eq_of_ne h₁
  have e₂ : setFree l₂ b.addr v = l₂ := setFree_eq_of_ne h₂
  unfold setFree at e₁ e₂
  rw [e₁, e₂]

theorem get_free_block_decomp {l₁ l₂ : List Block} {b : Block} {n : Nat}
    (hfirst : ∀ x ∈ l₁, ¬(x.is_free = true ∧ n ≤ x.size))
    (hbfree : b.is_free = true) (hbfit : n ≤ b.size) :
    get_free_block (l₁ ++ b :: l₂) n = some b := by
  unfold get_free_block
  apply find?_first
  · intro x hx
    have hb := hfirst x hx
    cases hfx : x.is_free with
    | false => simp [hfx]
    | true => simp only [hfx, Bool.true_and, decide_eq_false_iff_not]; exact fun hle => hb ⟨hfx, hle⟩
  · simp [hbfree, hbfit]

/-- Under the invariant, a block whose payload ends exactly at the break is
the last block of the chain. -/
theorem getLast_of_end_eq_brk {s : AllocState} {b : Block}
    (hinv : Inv s) (hmem : b ∈ s.blocks)
    (htop : b.addr + headerSize + b.size = s.brk) : s.blocks.getLast? = some b := by
  rcases List.eq_nil_or_concat s.blocks with hnil | ⟨L, c, hLc⟩
  · rw [hnil] at hmem; cases hmem
  · rw [List.concat_eq_append] at hLc
    rw [hLc, List.getLast?_concat]
    by_contra hne
    have hbc : b ≠ c := fun h => hne (by rw [h])
    have hbL : b ∈ L := by
      rw [hLc] at hmem
      rcases List.mem_append.mp hmem with h | h
      · exact h
      · simp at h; exact absurd h hbc
    have hpw := inv_pairwise_sep hinv
    rw [hLc] at hpw
    have hsep : sep b c := (List.pairwise_append.mp hpw).2.2 b hbL c (by simp)
    have hcb : c ∈ s.blocks := by rw [hLc]; simp
    have hbound := hinv.1 c hcb
    have := headerSize_pos
    unfold sep at hsep
    omega

/-- C1: `Allocate(size)` returns no-value when `size == 0`; otherwise the
first registry block (in chain order) with `free == true` and
`size ≥ requested` is flipped to Allocated and its payload address is
returned, with the block kept in place, unsplit, and its recorded size
unchanged. -/
theorem C1_malloc_first_fit (s : AllocState) (n : Nat) (l₁ l₂ : List Block) (b : Block)
    (hinv : Inv s) (hn : n ≠ 0) (hdec : s.blocks = l₁ ++ b :: l₂)
    (hbfree : b.is_free = true) (hbfit : n ≤ b.size)
    (hfirst : ∀ x ∈ l₁, ¬(x.is_free = true ∧ n ≤ x.size)) :
    malloc s 0 = (none, s) ∧
    malloc s n = (some (b.addr + headerSize),
      { s with blocks := l₁ ++ { b with is_free := false } :: l₂ }) := by
  refine ⟨by simp [malloc], ?_⟩
  obtain ⟨h₁, h₂⟩ := nodup_addr_split hdec (addr_nodup hinv)
  unfold malloc
  rw [if_neg hn, hdec, get_free_block_decomp hfirst hbfree hbfit]
  dsimp only
  rw [setFree_decomp h₁ h₂]

def sW1 : AllocState := ⟨1000, 1088, 2000, [⟨1000, 64, true⟩], fun _ => 0⟩

theorem C1_witness :
    Inv sW1 ∧
    (malloc sW1 0 = (none, sW1) ∧
     malloc sW1 50 = (some 1024, { sW1 with blocks := [⟨1000, 64, false⟩] })) :=
  ⟨by decide,
   C1_malloc_first_fit sW1 50 [] [] ⟨1000, 64, true⟩ (by decide) (by decide) rfl rfl
     (by decide) (by simp)⟩

/-- C2: `Release` of an empty pointer is a no-op.  Releasing a valid payload
pointer whose block ends exactly at the break detaches that block — which is
then the last of the chain — from the registry (emptying it if it was the
only block) and shrinks the heap by exactly `size + header_size`; in every
other case only the block's free flag is set, the block keeping its place in
the chain. -/
theorem C2_free_behaviour (s : AllocState) (b : Block)
    (hinv : Inv s) (hmem : b ∈ s.blocks) :
    free s none = s ∧
    (b.addr + headerSize + b.size = s.brk →
      free s (some (b.addr + headerSize)) =
        { s with blocks := s.blocks.dropLast, brk := s.brk - (b.size + headerSize) } ∧
      s.blocks.getLast? = some b ∧
      (free s (some (b.addr + headerSize))).brk + (b.size + headerSize) = s.brk ∧
      (s.blocks = [b] → (free s (some (b.addr + headerSize))).blocks = [])) ∧
    (b.addr + headerSize + b.size ≠ s.brk →
      ∃ l₁ l₂, s.blocks = l₁ ++ b :: l₂ ∧
        free s (some (b.addr + headerSize)) =
          { s with blocks := l₁ ++ { b with is_free := true } :: l₂ }) := by
  obtain ⟨l₁, l₂, hdec⟩ := List.append_of_mem hmem
  have hfind : findBlock s.blocks (b.addr + headerSize) = some b :=
    findBlock_decomp hdec (addr_nodup hinv)
  refine ⟨rfl, ?_, ?_⟩
  · intro htop
    have hres : free s (some (b.addr + headerSize)) =
        { s with blocks := s.blocks.dropLast, brk := s.brk - (b.size + headerSize) } := by
      unfold free
      dsimp only
      rw [hfind]
      dsimp only
      rw [if_pos (by omega : b.addr + headerSize + b.size = s.brk)]
    have hbound := hinv.1 b hmem
    refine ⟨hres, getLast_of_end_eq_brk hinv hmem htop, ?_, ?_⟩
    · rw [hres]; simp only []; omega
    · intro hsb; rw [hres, hsb]; rfl
  · intro hnot
    obtain ⟨h₁, h₂⟩ := nodup_addr_split hdec (addr_nodup hinv)
    refine ⟨l₁, l₂, hdec, ?_⟩
    unfold free
    dsimp only
    rw [hfind]
    dsimp only
    rw [if_neg (show ¬b.addr + headerSize + b.size = s.brk by omega), hdec,
      setFree_decomp h₁ h₂]

def sW2 : AllocState :=
  ⟨1000, 1240, 2000, [⟨1000, 64, false⟩, ⟨1088, 128, false⟩], fun _ => 0⟩

theorem C2_witness :
    Inv sW2 ∧ (⟨1088, 128, false⟩ : Block) ∈ sW2.blocks ∧
    (free sW2 none = sW2 ∧
     (1088 + headerSize + 128 = sW2.brk →
       free sW2 (some (1088 + headerSize)) =
         { sW2 with blocks := sW2.blocks.dropLast, brk := sW2.brk - (128 + headerSize) } ∧
       sW2.blocks.getLast? = some ⟨1088, 128, false⟩ ∧
       (free sW2 (some (1088 + headerSize))).brk + (128 + headerSize) = sW2.brk ∧
       (sW2.blocks = [⟨1088, 128, false⟩] →
         (free sW2 (some (1088 + headerSize))).blocks = [])) ∧
     (1088 + headerSize + 128 ≠ sW2.brk →
       ∃ l₁ l₂, sW2.blocks = l₁ ++ ⟨1088, 128, false⟩ :: l₂ ∧
         free sW2 (some (1088 + headerSize)) =
           { sW2 with blocks := l₁ ++ (⟨1088, 128, true⟩ : Block) :: l₂ })) :=
  ⟨by decide, by decide,
   C2_free_behaviour sW2 ⟨1088, 128, false⟩ (by decide) (by decide)⟩

/-- C5: `Reallocate(ptr, newSize)` with a valid payload pointer and a
positive request already covered by the recorded size returns the pointer
unchanged and leaves the whole state (block, registry, memory) unmodified. -/
theorem C5_realloc_shrink_noop (s : AllocState) (b : Block) (n : Nat)
    (hinv : Inv s) (hmem : b ∈ s.blocks) (hn : 0 < n) (hle : n ≤ b.size) :
    realloc s (some (b.addr + headerSize)) n = (some (b.addr + headerSize), s) := by
  obtain ⟨l₁, l₂, hdec⟩ := List.append_of_mem hmem
  have hfind := findBlock_decomp hdec (addr_nodup hinv)
  unfold realloc
  dsimp only
  rw [if_neg (by omega), hfind]
  dsimp only
  rw [if_pos hle]

theorem C5_witness :
    Inv sW2 ∧ (⟨1000, 64, false⟩ : Block) ∈ sW2.blocks ∧
    realloc sW2 (some (1000 + headerSize)) 30 = (some (1000 + headerSize), sW2) :=
  ⟨by decide, by decide,
   C5_realloc_shrink_noop sW2 ⟨1000, 64, false⟩ 30 (by decide) (by decide) (by decide)
     (by decide)⟩

/-- C7: `Reallocate(ptr, newSize)` with an empty pointer or a zero size is
exactly `Allocate(newSize)`: same result and same successor state. -/
theorem C7_realloc_as_malloc (s : AllocState) (p : Option Nat) (n : Nat)
    (h : p = none ∨ n = 0) :
    realloc s p n = malloc s n := by
  rcases h with h | h
  · subst h; rfl
  · subst h
    cases p with
    | none => rfl
    | some q => rfl

theorem C7_witness :
    realloc sW2 none 12 = malloc sW2 12 ∧
    realloc sW2 (some 1024) 0 = malloc sW2 0 :=
  ⟨C7_realloc_as_malloc sW2 none 12 (Or.inl rfl),
   C7_realloc_as_malloc sW2 (some 1024) 0 (Or.inr rfl)⟩

/-- C8: when the free-list scan misses and the heap extension fails, `malloc`
returns no-value and the state — chain, first, last, every header, break —
is exactly the pre-call state. -/
theorem C8_malloc_exhaustion (s : AllocState) (n : Nat) (hn : n ≠ 0)
    (hmiss : get_free_block s.blocks n = none)
    (hoom : s.limit < s.brk + (headerSize + n) % SIZE_MOD) :
    malloc s n = (none, s) := by
  unfold malloc
  rw [if_neg hn, hmiss]
  dsimp only
  rw [if_neg (by omega)]

def sW3 : AllocState := ⟨1000, 1000, 1010, [], fun _ => 0⟩

theorem C8_witness :
    get_free_block sW3.blocks 8 = none ∧
    sW3.limit < sW3.brk + (headerSize + 8) % SIZE_MOD ∧
    malloc sW3 8 = (none, sW3) :=
  ⟨rfl, by decide, C8_malloc_exhaustion sW3 8 (by decide) rfl (by decide)⟩

/-- The division-based test of `calloc` is exact: for `num ≠ 0` the check
`nsize == (num * nsize as size_t) / num` holds iff the product does not
overflow `size_t`. -/
theorem calloc_check_iff (num nsize : Nat) (h0 : 0 < num) :
    nsize = ((num * nsize) % SIZE_MOD) / num ↔ num * nsize < SIZE_MOD := by
  constructor
  · intro h
    by_contra hge
    push_neg at hge
    have hlt : (num * nsize) % SIZE_MOD < num * nsize :=
      Nat.lt_of_lt_of_le (Nat.mod_lt _ (by norm_num [SIZE_MOD])) hge
    have hdiv : (num * nsize) % SIZE_MOD / num < nsize :=
      (Nat.div_lt_iff_lt_mul h0).mpr (by rw [Nat.mul_comm nsize num]; exact hlt)
    omega
  · intro h
    rw [Nat.mod_eq_of_lt h, Nat.mul_div_cancel_left nsize h0]

/-- C4: `AllocateZeroed(count, elemSize)` returns no-value when either
argument is zero or when the `size_t` product overflows (caught by the
division check); on any successful return the product did not overflow and
every byte of the `count * elemSize`-byte region is zero. -/
theorem C4_calloc_zeroed (s : AllocState) (num nsize : Nat) :
    (num = 0 ∨ nsize = 0 → calloc s num nsize = (none, s)) ∧
    (SIZE_MOD ≤ num * nsize → calloc s num nsize = (none, s)) ∧
    (∀ p s', calloc s num nsize = (some p, s') →
      num * nsize < SIZE_MOD ∧ ∀ i < num * nsize, s'.mem (p + i) = 0) := by
  refine ⟨?_, ?_, ?_⟩
  · intro h; unfold calloc; rw [if_pos h]
  · intro hge
    have hM : (0 : Nat) < SIZE_MOD := by norm_num [SIZE_MOD]
    have h0 : 0 < num := by
      rcases Nat.eq_zero_or_pos num with h | h
      · subst h; rw [Nat.zero_mul] at hge; omega
      · exact h
    have hns : nsize ≠ 0 := by
      intro h; subst h; rw [Nat.mul_zero] at hge; omega
    unfold calloc
    rw [if_neg (by omega)]
    dsimp only
    rw [if_pos (fun hchk => by
      have := (calloc_check_iff num nsize h0).mp hchk; omega)]
  · intro p s' hcall
    unfold calloc at hcall
    by_cases hz : num = 0 ∨ nsize = 0
    · rw [if_pos hz] at hcall; simp at hcall
    · rw [if_neg hz] at hcall
      dsimp only at hcall
      have h0 : 0 < num := by omega
      by_cases hchk : nsize = (num * nsize) % SIZE_MOD / num
      · rw [if_neg (fun hne => hne hchk)] at hcall
        have hlt : num * nsize < SIZE_MOD := (calloc_check_iff num nsize h0).mp hchk
        rcases hmal : malloc s ((num * nsize) % SIZE_MOD) with ⟨r, s₁⟩
        rw [hmal] at hcall
        cases r with
        | none => simp at hcall
        | some q =>
            simp only [Prod.mk.injEq, Option.some.injEq] at hcall
            obtain ⟨hq, hs⟩ := hcall
            subst hq
            refine ⟨hlt, ?_⟩
            intro i hi
            rw [← hs]
            dsimp only
            unfold memsetZero
            rw [Nat.mod_eq_of_lt hlt, if_pos ⟨Nat.le_add_right _ _, by omega⟩]
      · rw [if_pos hchk] at hcall; simp at hcall

theorem C4_witness :
    calloc sW2 0 5 = (none, sW2) ∧
    calloc sW2 (2 ^ 63) 4 = (none, sW2) ∧
    (3 * 5 < SIZE_MOD ∧ ∀ i < 3 * 5, (calloc sW2 3 5).2.mem (1264 + i) = 0) :=
  ⟨(C4_calloc_zeroed sW2 0 5).1 (Or.inl rfl),
   (C4_calloc_zeroed sW2 (2 ^ 63) 4).2.1 (by norm_num [SIZE_MOD]),
   (C4_calloc_zeroed sW2 3 5).2.2 1264 (calloc sW2 3 5).2
     (Prod.ext_iff.mpr ⟨by decide, rfl⟩)⟩

theorem pairwise_rel_of_mem {α : Type} {R : α → α → Prop} {l : List α}
    (hpw : l.Pairwise R) {a b : α} (ha : a ∈ l) (hb : b ∈ l) (hne : a ≠ b) :
    R a b ∨ R b a := by
  rw [List.pairwise_iff_getElem] at hpw
  obtain ⟨i, hi, hia⟩ := List.mem_iff_getElem.mp ha
  obtain ⟨j, hj, hjb⟩ := List.mem_iff_getElem.mp hb
  rcases Nat.lt_trichotomy i j with h | h | h
  · exact Or.inl (hia ▸ hjb ▸ hpw i j hi hj h)
  · have hij : l.get ⟨i, hi⟩ = l.get ⟨j, hj⟩ := by subst h; rfl
    simp only [List.get_eq_getElem] at hij
    exact absurd ((hia.symm.trans hij).trans hjb) hne
  · exact Or.inr (hjb ▸ hia ▸ hpw j i hj hi h)

def sC3 : AllocState := ⟨0, 0, 100, [], fun _ => 0⟩

/-- C3 counterexample: from the well-formed empty state, `malloc` at
`2 ^ 64 - headerSize` wraps `total_size = sizeof(header_t) + size` to `0`,
so `sbrk(0)` trivially succeeds and a payload pointer is returned even though
the heap was never grown: the returned region is not writable memory. -/
theorem C3_counterexample :
    Inv sC3 ∧
    (malloc sC3 (2 ^ 64 - headerSize)).1 = some headerSize ∧
    ¬ Writable (malloc sC3 (2 ^ 64 - headerSize)).2 headerSize (2 ^ 64 - headerSize) := by
  refine ⟨by decide, by decide, by decide⟩

/-- C3 (amended): for every successful `Allocate(n)` from a well-formed state
such that `header_size + n` does not overflow `size_t`, the returned region
is `n` bytes of writable heap memory and is disjoint from the payload region
of every other currently-allocated block. -/
theorem C3_alloc_writable_disjoint (s : AllocState) (n p : Nat) (s' : AllocState)
    (hinv : Inv s) (hno : headerSize + n < SIZE_MOD)
    (hsucc : malloc s n = (some p, s')) :
    Writable s' p n ∧
    ∀ b' ∈ s'.blocks, b'.is_free = false → b'.addr + headerSize ≠ p →
      p + n ≤ b'.addr + headerSize ∨ b'.addr + headerSize + b'.size ≤ p := by
  have hhs := headerSize_pos
  unfold malloc at hsucc
  by_cases hn : n = 0
  · rw [if_pos hn] at hsucc; simp at hsucc
  · rw [if_neg hn] at hsucc
    cases hgf : get_free_block s.blocks n with
    | none =>
        rw [hgf] at hsucc
        dsimp only at hsucc
        by_cases hsb : s.brk + (headerSize + n) % SIZE_MOD ≤ s.limit
        · rw [if_pos hsb] at hsucc
          simp only [Prod.mk.injEq, Option.some.injEq] at hsucc
          obtain ⟨hp, hs'⟩ := hsucc
          have hmod : (headerSize + n) % SIZE_MOD = headerSize + n := Nat.mod_eq_of_lt hno
          subst hs'
          subst hp
          constructor
          · unfold Writable
            dsimp only
            have := hinv.2.2
            omega
          · intro b' hb' hfree hne
            dsimp only at hb'
            rcases List.mem_append.mp hb' with hb' | hb'
            · have := hinv.1 b' hb'
              right; omega
            · simp only [List.mem_singleton] at hb'
              subst hb'
              exact absurd rfl hne
        · rw [if_neg hsb] at hsucc; simp at hsucc
    | some b =>
        rw [hgf] at hsucc
        dsimp only at hsucc
        simp only [Prod.mk.injEq, Option.some.injEq] at hsucc
        obtain ⟨hp, hs'⟩ := hsucc
        unfold get_free_block at hgf
        have hbmem := List.mem_of_find?_eq_some hgf
        have hbp := List.find?_some hgf
        rw [Bool.and_eq_true, decide_eq_true_iff] at hbp
        obtain ⟨hbfree, hbfit⟩ := hbp
        have hbound := hinv.1 b hbmem
        subst hs'
        constructor
        · unfold Writable
          dsimp only
          omega
        · intro b' hb' hfree hne
          dsimp only at hb'
          unfold setFree at hb'
          obtain ⟨x, hx, hxe⟩ := List.mem_map.mp hb'
          by_cases hxa : x.addr = b.addr
          · rw [if_pos hxa] at hxe
            exfalso
            apply hne
            rw [← hxe]
            dsimp only
            omega
          · rw [if_neg hxa] at hxe
            subst hxe
            have hxb : x ≠ b := fun h => hxa (by rw [h])
            rcases pairwise_rel_of_mem (inv_pairwise_sep hinv) hx hbmem hxb with h | h
            · unfold sep at h; right; omega
            · unfold sep at h; left; omega

theorem C3_witness :
    Inv sW2 ∧ headerSize + 100 < SIZE_MOD ∧
    (Writable (malloc sW2 100).2 1264 100 ∧
     ∀ b' ∈ (malloc sW2 100).2.blocks, b'.is_free = false → b'.addr + headerSize ≠ 1264 →
       1264 + 100 ≤ b'.addr + headerSize ∨ b'.addr + headerSize + b'.size ≤ 1264) :=
  ⟨by decide, by decide,
   C3_alloc_writable_disjoint sW2 100 1264 (malloc sW2 100).2 (by decide) (by decide)
     (Prod.ext_iff.mpr ⟨by decide, rfl⟩)⟩

theorem malloc_mem (s : AllocState) (n : Nat) : (malloc s n).2.mem = s.mem := by
  unfold malloc
  split
  · rfl
  · cases get_free_block s.blocks n with
    | some b => rfl
    | none =>
        dsimp only
        split
        · rfl
        · rfl

theorem free_mem (s : AllocState) (p : Option Nat) : (free s p).mem = s.mem := by
  unfold free
  cases p with
  | none => rfl
  | some pp =>
      dsimp only
      cases findBlock s.blocks pp with
      | none => rfl
      | some b =>
          dsimp only
          split
          · rfl
          · rfl

theorem malloc_none_state (s : AllocState) (n : Nat)
    (h : (malloc s n).1 = none) : malloc s n = (none, s) := by
  unfold malloc at h ⊢
  by_cases hn : n = 0
  · rw [if_pos hn]
  · rw [if_neg hn] at h ⊢
    cases hg : get_free_block s.blocks n with
    | some b => rw [hg] at h; simp at h
    | none =>
        rw [hg] at h
        dsimp only at h ⊢
        by_cases hsb : s.brk + (headerSize + n) % SIZE_MOD ≤ s.limit
        · rw [if_pos hsb] at h; simp at h
        · rw [if_neg hsb]

/-- C6: growing `Reallocate` on a valid payload pointer allocates `newSize`,
copies the old block's `min(oldSize, newSize) = oldSize` bytes into the new
region, releases the old block via `free`, and returns the new address; if
the allocation fails the call returns no-value and the entire state — the old
block included — is exactly as before. -/
theorem C6_realloc_grow (s : AllocState) (b : Block) (n : Nat)
    (hinv : Inv s) (hmem : b ∈ s.blocks) (hgrow : b.size < n) :
    ((malloc s n).1 = none →
      realloc s (some (b.addr + headerSize)) n = (none, s)) ∧
    (∀ r s₁, malloc s n = (some r, s₁) →
      realloc s (some (b.addr + headerSize)) n =
        (some r, free { s₁ with mem := memcpy s₁.mem r (b.addr + headerSize) b.size }
          (some (b.addr + headerSize))) ∧
      ∀ i < b.size,
        (realloc s (some (b.addr + headerSize)) n).2.mem (r + i) =
          s.mem (b.addr + headerSize + i)) := by
  obtain ⟨l₁, l₂, hdec⟩ := List.append_of_mem hmem
  have hfind := findBlock_decomp hdec (addr_nodup hinv)
  have hn0 : ¬ n = 0 := by omega
  constructor
  · intro hnone
    have hm := malloc_none_state s n hnone
    unfold realloc
    dsimp only
    rw [if_neg hn0, hfind]
    dsimp only
    rw [if_neg (by omega), hm]
  · intro r s₁ hmal
    have hre : realloc s (some (b.addr + headerSize)) n =
        (some r, free { s₁ with mem := memcpy s₁.mem r (b.addr + headerSize) b.size }
          (some (b.addr + headerSize))) := by
      unfold realloc
      dsimp only
      rw [if_neg hn0, hfind]
      dsimp only
      rw [if_neg (by omega), hmal]
    refine ⟨hre, ?_⟩
    intro i hi
    rw [hre]
    dsimp only
    rw [free_mem]
    dsimp only
    have hm1 : s₁.mem = s.mem := by
      have h := malloc_mem s n
      rw [hmal] at h
      exact h
    unfold memcpy
    rw [if_pos ⟨Nat.le_add_right _ _, by omega⟩, hm1]
    congr 1
    omega

theorem C6_witness :
    Inv sW2 ∧ (⟨1000, 64, false⟩ : Block) ∈ sW2.blocks ∧ (64 : Nat) < 100 ∧
    (realloc sW2 (some (1000 + headerSize)) 100 =
      (some 1264, free { (malloc sW2 100).2 with
          mem := memcpy (malloc sW2 100).2.mem 1264 (1000 + headerSize) 64 }
        (some (1000 + headerSize))) ∧
     ∀ i < 64,
       (realloc sW2 (some (1000 + headerSize)) 100).2.mem (1264 + i) =
         sW2.mem (1000 + headerSize + i)) :=
  ⟨by decide, by decide, by decide,
   (C6_realloc_grow sW2 ⟨1000, 64, false⟩ 100 (by decide) (by decide) (by decide)).2
     1264 (malloc sW2 100).2 (Prod.ext_iff.mpr ⟨by decide, rfl⟩)⟩

theorem setFree_map_addr (bs : List Block) (a : Nat) (v : Bool) :
    (setFree bs a v).map Block.addr = bs.map Block.addr := by
  unfold setFree
  rw [List.map_map]
  apply List.map_congr_left
  intro x _
  by_cases h : x.addr = a <;> simp [h]

theorem sortedAddr_dropLast {bs : List Block} (h : SortedAddr bs) :
    SortedAddr bs.dropLast := by
  unfold SortedAddr at *
  exact h.sublist ((List.dropLast_sublist bs).map Block.addr)

theorem free_sortedAddr (s : AllocState) (p : Option Nat)
    (h : SortedAddr s.blocks) : SortedAddr (free s p).blocks := by
  unfold free
  cases p with
  | none => exact h
  | some pp =>
      dsimp only
      cases findBlock s.blocks pp with
      | none => exact h
      | some b =>
          dsimp only
          split
          · exact sortedAddr_dropLast h
          · unfold SortedAddr at *
            rw [setFree_map_addr]
            exact h

theorem sortedAddr_snoc {s : AllocState} (hinv : Inv s) (bl : Block)
    (hbl : s.brk ≤ bl.addr) : SortedAddr (s.blocks ++ [bl]) := by
  unfold SortedAddr
  rw [List.map_append]
  refine List.chain'_append.mpr ⟨sortedAddr_of_inv hinv, List.chain'_singleton _, ?_⟩
  intro x hx y hy
  simp only [List.map_cons, List.map_nil, List.head?_cons, Option.mem_def,
    Option.some.injEq] at hy
  subst hy
  rw [List.getLast?_map] at hx
  cases hgl : s.blocks.getLast? with
  | none => rw [hgl] at hx; cases hx
  | some c =>
      rw [hgl] at hx
      simp only [Option.map_some', Option.mem_def, Option.some.injEq] at hx
      subst hx
      have hc : c ∈ s.blocks := List.mem_of_mem_getLast? (by rw [hgl]; rfl)
      have := hinv.1 c hc
      have := headerSize_pos
      omega

theorem malloc_map_addr (s : AllocState) (n : Nat) :
    (malloc s n).2.blocks.map Block.addr = s.blocks.map Block.addr ∨
    (malloc s n).2.blocks.map Block.addr = s.blocks.map Block.addr ++ [s.brk] := by
  unfold malloc
  by_cases hn : n = 0
  · rw [if_pos hn]; exact Or.inl rfl
  · rw [if_neg hn]
    cases get_free_block s.blocks n with
    | some b => exact Or.inl (setFree_map_addr _ _ _)
    | none =>
        dsimp only
        split
        · right
          dsimp only
          rw [List.map_append]
          rfl
        · exact Or.inl rfl

theorem malloc_sortedAddr (s : AllocState) (n : Nat) (hinv : Inv s) :
    SortedAddr (malloc s n).2.blocks := by
  unfold malloc
  by_cases hn : n = 0
  · rw [if_pos hn]; exact sortedAddr_of_inv hinv
  · rw [if_neg hn]
    cases get_free_block s.blocks n with
    | some b =>
        dsimp only
        unfold SortedAddr
        rw [setFree_map_addr]
        exact sortedAddr_of_inv hinv
    | none =>
        dsimp only
        split
        · exact sortedAddr_snoc hinv _ (Nat.le_refl _)
        · exact sortedAddr_of_inv hinv

theorem calloc_sortedAddr (s : AllocState) (num nsize : Nat) (hinv : Inv s) :
    SortedAddr (calloc s num nsize).2.blocks := by
  unfold calloc
  by_cases hz : num = 0 ∨ nsize = 0
  · rw [if_pos hz]; exact sortedAddr_of_inv hinv
  · rw [if_neg hz]
    dsimp only
    by_cases hchk : nsize ≠ (num * nsize) % SIZE_MOD / num
    · rw [if_pos hchk]; exact sortedAddr_of_inv hinv
    · rw [if_neg hchk]
      rcases hm : malloc s ((num * nsize) % SIZE_MOD) with ⟨r, s₁⟩
      have hms := malloc_sortedAddr s ((num * nsize) % SIZE_MOD) hinv
      rw [hm] at hms
      cases r with
      | none => exact hms
      | some q => exact hms

theorem realloc_sortedAddr (s : AllocState) (q : Option Nat) (n : Nat) (hinv : Inv s) :
    SortedAddr (realloc s q n).2.blocks := by
  unfold realloc
  cases q with
  | none => exact malloc_sortedAddr s n hinv
  | some pp =>
      dsimp only
      by_cases hn : n = 0
      · rw [if_pos hn]; exact malloc_sortedAddr s n hinv
      · rw [if_neg hn]
        cases findBlock s.blocks pp with
        | none => exact sortedAddr_of_inv hinv
        | some b =>
            dsimp only
            by_cases hle : n ≤ b.size
            · rw [if_pos hle]; exact sortedAddr_of_inv hinv
            · rw [if_neg hle]
              rcases hm : malloc s n with ⟨r, s₁⟩
              have hms := malloc_sortedAddr s n hinv
              rw [hm] at hms
              cases r with
              | none => exact hms
              | some ret => exact free_sortedAddr _ _ hms

/-- C9: from an invariant state, every public operation leaves the chain in
strictly increasing address order, and `malloc` either keeps the address
chain unchanged (reuse or failure) or appends the freshly carved block — at
the old top of heap — after the current last entry, never in the middle. -/
theorem C9_registry_order (s : AllocState) (n num nsize m : Nat)
    (p q : Option Nat) (hinv : Inv s) :
    SortedAddr (malloc s n).2.blocks ∧
    ((malloc s n).2.blocks.map Block.addr = s.blocks.map Block.addr ∨
     (malloc s n).2.blocks.map Block.addr = s.blocks.map Block.addr ++ [s.brk]) ∧
    SortedAddr (free s p).blocks ∧
    SortedAddr (calloc s num nsize).2.blocks ∧
    SortedAddr (realloc s q m).2.blocks :=
  ⟨malloc_sortedAddr s n hinv, malloc_map_addr s n,
   free_sortedAddr s p (sortedAddr_of_inv hinv),
   calloc_sortedAddr s num nsize hinv,
   realloc_sortedAddr s q m hinv⟩

theorem C9_witness :
    Inv sW2 ∧
    (SortedAddr (malloc sW2 40).2.blocks ∧
     ((malloc sW2 40).2.blocks.map Block.addr = sW2.blocks.map Block.addr ∨
      (malloc sW2 40).2.blocks.map Block.addr = sW2.blocks.map Block.addr ++ [sW2.brk]) ∧
     SortedAddr (free sW2 (some 1024)).blocks ∧
     SortedAddr (calloc sW2 3 5).2.blocks ∧
     SortedAddr (realloc sW2 (some 1024) 80).2.blocks) :=
  ⟨by decide, C9_registry_order sW2 40 3 5 80 (some 1024) (some 1024) (by decide)⟩

namespace Ptr

/-!
Pointer model of the registry: the globals `head`/`tail` and the heap's
header cells are kept as raw data, and the chain manipulations of
`memalloc.c` are transcribed pointer for pointer, so that the head/tail
consistency of the `next` chain (claim C10) is about the very pointer
updates the C performs, not about an already-abstracted list.  Loops
(`get_free_block`'s scan and `free`'s second-to-last walk) carry a fuel
bounded by the number of header cells; under the consistency invariant the
fuel is never exhausted.  Dereferencing an address with no header cell is
undefined behaviour in C and is modelled as leaving the walk without result.
-/

/-- The mutable fields of `union header`. -/
structure PHeader where
  size : Nat
  is_free : Bool
  next : Option Nat
deriving DecidableEq, Repr

/-- The registry globals of `memalloc.c`: the header cells living in the
heap (keyed by header address; a later entry is shadowed by a more recent
write) together with `head` and `tail`. -/
structure PState where
  hmap : List (Nat × PHeader)
  head : Option Nat
  tail : Option Nat
deriving DecidableEq, Repr

/-- Read the header stored at address `a`. -/
def getH (m : List (Nat × PHeader)) (a : Nat) : Option PHeader :=
  (m.find? (fun e => e.1 == a)).map Prod.snd

/-- `header->s.next = v` on the cell at `a`. -/
def setNext (m : List (Nat × PHeader)) (a : Nat) (v : Option Nat) :
    List (Nat × PHeader) :=
  m.map (fun e => if e.1 = a then (e.1, { e.2 with next := v }) else e)

/-- `header->s.is_free = v` on the cell at `a`. -/
def setFreeP (m : List (Nat × PHeader)) (a : Nat) (v : Bool) :
    List (Nat × PHeader) :=
  m.map (fun e => if e.1 = a then (e.1, { e.2 with is_free := v }) else e)

/-- memalloc.c:130-140: write a fresh header at `a` and link it:
`if (!head) head = header; if (tail) tail->s.next = header; tail = header;`. -/
def pappend (s : PState) (a : Nat) (sz : Nat) : PState :=
  let m₁ := (a, ⟨sz, false, none⟩) :: s.hmap
  let newHead := if s.head = none then some a else s.head
  let m₂ := match s.tail with
            | some t => setNext m₁ t (some a)
            | none => m₁
  { hmap := m₂, head := newHead, tail := some a }

/-- memalloc.c:71-73: `tmp = head; while (tmp && tmp->s.next != tail)
tmp = tmp->s.next;` — the fuelled walk looking for the node whose `next` is
`tgt`. -/
def pfindPrev (m : List (Nat × PHeader)) (tgt : Option Nat) :
    Option Nat → Nat → Option Nat
  | none, _ => none
  | some c, fuel =>
      match getH m c with
      | none => none
      | some h =>
          if h.next = tgt then some c
          else
            match fuel with
            | 0 => none
            | f + 1 => pfindPrev m tgt h.next f

/-- memalloc.c:67-78: the registry part of releasing a block at the top of
heap: `head == tail` empties the registry; otherwise the second-to-last node
(found by the walk) gets `next = NULL` and becomes `tail`. -/
def pdetach (s : PState) : PState :=
  if s.head = s.tail then { s with head := none, tail := none }
  else
    match pfindPrev s.hmap s.tail s.head s.hmap.length with
    | some t => { s with hmap := setNext s.hmap t none, tail := some t }
    | none => s

/-- `free` (memalloc.c:53-94) on the pointer registry; `brk` is the current
program break, returned updated. -/
def pfree (s : PState) (brk : Nat) (p : Option Nat) : PState × Nat :=
  match p with
  | none => (s, brk)
  | some pp =>
      match getH s.hmap (pp - headerSize) with
      | none => (s, brk)
      | some h =>
          if pp + h.size = brk then
            (pdetach s, brk - (h.size + headerSize))
          else
            ({ s with hmap := setFreeP s.hmap (pp - headerSize) true }, brk)

/-- `get_free_block` (memalloc.c:36-45) as the fuelled chain walk from
`head`. -/
def pget_free_block (m : List (Nat × PHeader)) (sz : Nat) :
    Option Nat → Nat → Option Nat
  | none, _ => none
  | some c, fuel =>
      match getH m c with
      | none => none
      | some h =>
          if h.is_free ∧ sz ≤ h.size then some c
          else
            match fuel with
            | 0 => none
            | f + 1 => pget_free_block m sz h.next f

/-- `malloc` (memalloc.c:102-144) on the pointer registry. -/
def pmalloc (s : PState) (brk limit sz : Nat) : Option Nat × PState × Nat :=
  if sz = 0 then (none, s, brk)
  else
    match pget_free_block s.hmap sz s.head s.hmap.length with
    | some c => (some (c + headerSize), { s with hmap := setFreeP s.hmap c false }, brk)
    | none =>
        let total_size := (headerSize + sz) % SIZE_MOD
        if brk + total_size ≤ limit then
          (some (brk + headerSize), pappend s brk sz, brk + total_size)
        else (none, s, brk)

/-- `calloc` (memalloc.c:152-172) on the pointer registry; the `memset` on
the payload does not touch the registry. -/
def pcalloc (s : PState) (brk limit num nsize : Nat) : Option Nat × PState × Nat :=
  if num = 0 ∨ nsize = 0 then (none, s, brk)
  else
    let size := (num * nsize) % SIZE_MOD
    if nsize ≠ size / num then (none, s, brk)
    else pmalloc s brk limit size

/-- `realloc` (memalloc.c:179-200) on the pointer registry; the `memcpy` on
the payload does not touch the registry. -/
def prealloc (s : PState) (brk limit : Nat) (p : Option Nat) (sz : Nat) :
    Option Nat × PState × Nat :=
  match p with
  | none => pmalloc s brk limit sz
  | some pp =>
      if sz = 0 then pmalloc s brk limit sz
      else
        match getH s.hmap (pp - headerSize) with
        | none => (none, s, brk)
        | some h =>
            if sz ≤ h.size then (some pp, s, brk)
            else
              match pmalloc s brk limit sz with
              | (none, s', brk') => (none, s', brk')
              | (some r, s', brk') =>
                  match pfree s' brk' (some pp) with
                  | (s'', brk'') => (some r, s'', brk'')

/-- `Links m c L`: starting at pointer `c` and following the `next` fields,
one visits exactly the header addresses in `L` and then `NULL`. -/
def Links (m : List (Nat × PHeader)) : Option Nat → List Nat → Bool
  | c, [] => c == none
  | c, a :: L =>
      c == some a &&
        match getH m a with
        | none => false
        | some h => Links m h.next L

/-- Head/tail consistency: the chain from `head` is finite and `tail` is
exactly its last node (`none` on the empty registry). -/
def Consistent (s : PState) : Prop :=
  ∃ L : List Nat, Links s.hmap s.head L = true ∧ s.tail = L.getLast?

/-- `head == NULL` iff `tail == NULL`. -/
def HeadTailIff (s : PState) : Prop := s.head = none ↔ s.tail = none

/-- On a non-empty registry the tail's `next` is `NULL`. -/
def TailOk (s : PState) : Prop :=
  ∀ t, s.tail = some t → ∃ h, getH s.hmap t = some h ∧ h.next = none

/-- Every header cell lies below the break (headers live in granted heap
memory, so a fresh carve at the break is at a fresh address). -/
def KeysBelow (m : List (Nat × PHeader)) (brk : Nat) : Prop :=
  ∀ e ∈ m, e.1 + headerSize ≤ brk

instance (m : List (Nat × PHeader)) (brk : Nat) : Decidable (KeysBelow m brk) :=
  inferInstanceAs (Decidable (∀ e ∈ m, e.1 + headerSize ≤ brk))

theorem getH_cons (b : Nat) (h : PHeader) (m : List (Nat × PHeader)) (x : Nat) :
    getH ((b, h) :: m) x = if b = x then some h else getH m x := by
  unfold getH
  by_cases hbx : b = x
  · rw [List.find?_cons_of_pos _ (by simp [hbx]), if_pos hbx]; rfl
  · rw [List.find?_cons_of_neg _ (by simp [hbx]), if_neg hbx]

theorem getH_mapAt (m : List (Nat × PHeader)) (a x : Nat) (f : PHeader → PHeader) :
    getH (m.map (fun e => if e.1 = a then (e.1, f e.2) else e)) x =
      (getH m x).map (fun h => if x = a then f h else h) := by
  induction m with
  | nil => rfl
  | cons e m ih =>
      obtain ⟨b, h⟩ := e
      rw [List.map_cons]
      by_cases hba : b = a
      · rw [if_pos hba]
        dsimp only
        rw [getH_cons, getH_cons]
        by_cases hbx : b = x
        · subst hbx
          rw [if_pos rfl, if_pos rfl]
          subst hba
          simp
        · rw [if_neg hbx, if_neg hbx]
          exact ih
      · rw [if_neg hba]
        rw [getH_cons, getH_cons]
        by_cases hbx : b = x
        · subst hbx
          rw [if_pos rfl, if_pos rfl]
          simp only [Option.map_some']
          rw [if_neg (fun hh => hba hh)]
        · rw [if_neg hbx, if_neg hbx]
          exact ih

theorem getH_setNext (m : List (Nat × PHeader)) (a x : Nat) (v : Option Nat) :
    getH (setNext m a v) x =
      (getH m x).map (fun h => if x = a then { h with next := v } else h) := by
  simpa [setNext] using getH_mapAt m a x (fun h => { h with next := v })

theorem getH_setFreeP (m : List (Nat × PHeader)) (a x : Nat) (v : Bool) :
    getH (setFreeP m a v) x =
      (getH m x).map (fun h => if x = a then { h with is_free := v } else h) := by
  simpa [setFreeP] using getH_mapAt m a x (fun h => { h with is_free := v })

theorem links_nil_iff (m : List (Nat × PHeader)) (c : Option Nat) :
    Links m c [] = true ↔ c = none := by
  show (c == none) = true ↔ c = none
  exact beq_iff_eq

theorem links_cons_iff (m : List (Nat × PHeader)) (c : Option Nat) (a : Nat)
    (L : List Nat) :
    Links m c (a :: L) = true ↔
      c = some a ∧ ∃ h, getH m a = some h ∧ Links m h.next L = true := by
  show (c == some a &&
      match getH m a with
      | none => false
      | some h => Links m h.next L) = true ↔ _
  rw [Bool.and_eq_true, beq_iff_eq]
  constructor
  · rintro ⟨hc, hm⟩
    refine ⟨hc, ?_⟩
    cases hg : getH m a with
    | none => rw [hg] at hm; cases hm
    | some h => rw [hg] at hm; exact ⟨h, rfl, hm⟩
  · rintro ⟨hc, h, hg, hl⟩
    refine ⟨hc, ?_⟩
    rw [hg]
    exact hl

/-- `Links` only inspects the `next` field of each visited header. -/
theorem links_congr_next {m₁ m₂ : List (Nat × PHeader)}
    (h : ∀ x, (getH m₁ x).map PHeader.next = (getH m₂ x).map PHeader.next) :
    ∀ (L : List Nat) (c : Option Nat), Links m₁ c L = Links m₂ c L
  | [], c => rfl
  | a :: L, c => by
      show (c == some a &&
          match getH m₁ a with
          | none => false
          | some h => Links m₁ h.next L) =
        (c == some a &&
          match getH m₂ a with
          | none => false
          | some h => Links m₂ h.next L)
      cases h₁ : getH m₁ a with
      | none =>
          cases h₂ : getH m₂ a with
          | none => rfl
          | some g => have hx := h a; rw [h₁, h₂] at hx; cases hx
      | some g₁ =>
          cases h₂ : getH m₂ a with
          | none => have hx := h a; rw [h₁, h₂] at hx; cases hx
          | some g₂ =>
              have hx := h a
              rw [h₁, h₂] at hx
              simp only [Option.map_some', Option.some.injEq] at hx
              dsimp only
              rw [hx, links_congr_next h L g₂.next]

theorem links_setFreeP (m : List (Nat × PHeader)) (a : Nat) (v : Bool)
    (L : List Nat) (c : Option Nat) :
    Links (setFreeP m a v) c L = Links m c L := by
  apply links_congr_next
  intro x
  rw [getH_setFreeP]
  cases getH m x with
  | none => rfl
  | some h => by_cases hx : x = a <;> simp [hx]

theorem links_deterministic {m : List (Nat × PHeader)} :
    ∀ {L₁ L₂ : List Nat} {c : Option Nat},
      Links m c L₁ = true → Links m c L₂ = true → L₁ = L₂
  | [], [], _, _, _ => rfl
  | [], b :: L₂, c, h₁, h₂ => by
      rw [links_nil_iff] at h₁
      rw [links_cons_iff] at h₂
      rw [h₁] at h₂
      cases h₂.1
  | a :: L₁, [], c, h₁, h₂ => by
      rw [links_nil_iff] at h₂
      rw [links_cons_iff] at h₁
      rw [h₂] at h₁
      cases h₁.1
  | a :: L₁, b :: L₂, c, h₁, h₂ => by
      rw [links_cons_iff] at h₁ h₂
      obtain ⟨hc₁, g₁, hg₁, hl₁⟩ := h₁
      obtain ⟨hc₂, g₂, hg₂, hl₂⟩ := h₂
      rw [hc₁] at hc₂
      have hab : a = b := by injection hc₂
      subst hab
      rw [hg₁] at hg₂
      have hgg : g₁ = g₂ := by injection hg₂
      subst hgg
      rw [links_deterministic hl₁ hl₂]

theorem links_of_mem {m : List (Nat × PHeader)} :
    ∀ {L : List Nat} {c : Option Nat} {x : Nat},
      Links m c L = true → x ∈ L →
      ∃ A B, L = A ++ x :: B ∧ Links m (some x) (x :: B) = true
  | [], _, _, _, hx => absurd hx (List.not_mem_nil _)
  | a :: L, c, x, hl, hx => by
      obtain ⟨hc, g, hg, hl'⟩ := (links_cons_iff ..).mp hl
      rcases List.mem_cons.mp hx with rfl | hx
      · exact ⟨[], L, rfl, by rw [← hc]; exact hl⟩
      · obtain ⟨A, B, hAB, hlx⟩ := links_of_mem hl' hx
        exact ⟨a :: A, B, by rw [hAB]; rfl, hlx⟩

theorem links_nodup {m : List (Nat × PHeader)} :
    ∀ {L : List Nat} {c : Option Nat}, Links m c L = true → L.Nodup
  | [], _, _ => List.nodup_nil
  | a :: L, c, hl => by
      obtain ⟨hc, g, hg, hl'⟩ := (links_cons_iff ..).mp hl
      refine List.nodup_cons.mpr ⟨?_, links_nodup hl'⟩
      intro hmem
      obtain ⟨A, B, hAB, hlx⟩ := links_of_mem hl' hmem
      have h₁ : Links m (some a) (a :: L) = true := by rw [← hc]; exact hl
      have h₂ := links_deterministic h₁ hlx
      have hLB : L = B := by injection h₂
      subst hLB
      have hlen := congrArg List.length hAB
      simp [List.length_append] at hlen
      omega

theorem links_keys {m : List (Nat × PHeader)} :
    ∀ {L : List Nat} {c : Option Nat}, Links m c L = true →
      ∀ x ∈ L, x ∈ m.map Prod.fst
  | [], _, _, x, hx => absurd hx (List.not_mem_nil _)
  | a :: L, c, hl, x, hx => by
      obtain ⟨hc, g, hg, hl'⟩ := (links_cons_iff ..).mp hl
      rcases List.mem_cons.mp hx with rfl | hx
      · unfold getH at hg
        cases hf : m.find? (fun e => e.1 == x) with
        | none => rw [hf] at hg; cases hg
        | some e =>
            have hmem := List.mem_of_find?_eq_some hf
            have hpe := List.find?_some hf
            rw [beq_iff_eq] at hpe
            rw [← hpe]
            exact List.mem_map_of_mem _ hmem
      · exact links_keys hl' x hx

theorem links_length_le {m : List (Nat × PHeader)} {L : List Nat} {c : Option Nat}
    (hl : Links m c L = true) : L.length ≤ m.length := by
  have hsub : L ⊆ m.map Prod.fst := fun x hx => links_keys hl x hx
  have := (List.subperm_of_subset (links_nodup hl) hsub).length_le
  simpa using this

theorem links_getLast {m : List (Nat × PHeader)} :
    ∀ {L : List Nat} {c : Option Nat} {t : Nat},
      Links m c L = true → L.getLast? = some t →
      ∃ h, getH m t = some h ∧ h.next = none
  | [], _, _, _, hg => by cases hg
  | [a], c, t, hl, hg => by
      obtain ⟨hc, h, hgh, hl'⟩ := (links_cons_iff ..).mp hl
      have hat : a = t := by simpa using hg
      subst hat
      rw [links_nil_iff] at hl'
      exact ⟨h, hgh, hl'⟩
  | a :: b :: L, c, t, hl, hg => by
      obtain ⟨hc, h, hgh, hl'⟩ := (links_cons_iff ..).mp hl
      rw [List.getLast?_cons_cons] at hg
      exact links_getLast hl' hg

theorem consistent_props {s : PState} (h : Consistent s) :
    HeadTailIff s ∧ TailOk s := by
  obtain ⟨L, hl, ht⟩ := h
  constructor
  · unfold HeadTailIff
    cases L with
    | nil =>
        rw [links_nil_iff] at hl
        simp only [List.getLast?_nil] at ht
        rw [hl, ht]
    | cons a L =>
        obtain ⟨hc, _, _, _⟩ := (links_cons_iff ..).mp hl
        constructor
        · intro hh; rw [hh] at hc; cases hc
        · intro hh
          rw [ht, List.getLast?_eq_getLast (a :: L) (by simp)] at hh
          cases hh
  · intro t hts
    rw [ht] at hts
    exact links_getLast hl hts

theorem exists_last_two {α : Type} :
    ∀ {L : List α}, 2 ≤ L.length → ∃ L₀ a b, L = L₀ ++ [a, b]
  | [], h => by simp at h
  | [_], h => by simp at h
  | a :: b :: L, _ => by
      rcases L with _ | ⟨c, L'⟩
      · exact ⟨[], a, b, rfl⟩
      · obtain ⟨L₀, x, y, hxy⟩ := exists_last_two (L := b :: c :: L') (by simp)
        exact ⟨a :: L₀, x, y, by rw [List.cons_append, ← hxy]⟩

theorem pfindPrev_spec {m : List (Nat × PHeader)} :
    ∀ (L₀ : List Nat) (t lst : Nat) (c : Option Nat) (fuel : Nat),
      Links m c (L₀ ++ [t, lst]) = true →
      (L₀ ++ [t, lst]).Nodup →
      L₀.length ≤ fuel →
      pfindPrev m (some lst) c fuel = some t
  | [], t, lst, c, fuel, hl, hnd, hf => by
      simp only [List.nil_append] at hl hnd
      obtain ⟨hc, h, hg, hl'⟩ := (links_cons_iff ..).mp hl
      obtain ⟨hc', h', hg', hl''⟩ := (links_cons_iff ..).mp hl'
      subst hc
      unfold pfindPrev
      rw [hg]
      dsimp only
      rw [if_pos hc']
  | x :: L₀, t, lst, c, fuel, hl, hnd, hf => by
      rw [List.cons_append] at hl hnd
      obtain ⟨hc, h, hg, hl'⟩ := (links_cons_iff ..).mp hl
      subst hc
      rcases hR : L₀ ++ [t, lst] with _ | ⟨y, R⟩
      · exact absurd hR (by simp)
      · rw [hR] at hl'
        obtain ⟨hcy, _, _, _⟩ := (links_cons_iff ..).mp hl'
        have hy_ne : y ≠ lst := by
          have hlen : (y :: R).length = L₀.length + 2 := by rw [← hR]; simp
          rcases R with _ | ⟨r, R'⟩
          · simp at hlen
          · have hgl : (y :: r :: R').getLast? = some lst := by
              rw [← hR]
              have he : L₀ ++ [t, lst] = (L₀ ++ [t]) ++ [lst] := by simp
              rw [he, List.getLast?_concat]
            rw [List.getLast?_cons_cons] at hgl
            have hmem : lst ∈ r :: R' := List.mem_of_mem_getLast? (by rw [hgl]; rfl)
            have hnd' : (y :: r :: R').Nodup := by rw [← hR]; exact (List.nodup_cons.mp hnd).2
            have hynotin : y ∉ r :: R' := (List.nodup_cons.mp hnd').1
            intro he; rw [he] at hynotin; exact hynotin hmem
        rw [← hR] at hl'
        unfold pfindPrev
        rw [hg]
        dsimp only
        rw [if_neg (by rw [hcy]; intro he; exact hy_ne (by injection he))]
        cases fuel with
        | zero => simp at hf
        | succ f =>
            exact pfindPrev_spec L₀ t lst h.next f hl'
              (List.nodup_cons.mp hnd).2 (by simp at hf; omega)

theorem links_setNext_lastTwo {m : List (Nat × PHeader)} {t lst : Nat} :
    ∀ (L₀ : List Nat) (c : Option Nat),
      Links m c (L₀ ++ [t, lst]) = true →
      (L₀ ++ [t, lst]).Nodup →
      Links (setNext m t none) c (L₀ ++ [t]) = true
  | [], c, hl, hnd => by
      simp only [List.nil_append] at hl hnd ⊢
      obtain ⟨hc, h, hg, hl'⟩ := (links_cons_iff ..).mp hl
      apply (links_cons_iff ..).mpr
      refine ⟨hc, { h with next := none }, ?_, ?_⟩
      · rw [getH_setNext, hg]; simp
      · exact (links_nil_iff ..).mpr rfl
  | x :: L₀, c, hl, hnd => by
      rw [List.cons_append] at hl hnd ⊢
      obtain ⟨hc, h, hg, hl'⟩ := (links_cons_iff ..).mp hl
      have hxt : x ≠ t := by
        have hx := (List.nodup_cons.mp hnd).1
        intro he; rw [he] at hx; exact hx (by simp)
      apply (links_cons_iff ..).mpr
      refine ⟨hc, h, ?_, ?_⟩
      · rw [getH_setNext, hg]
        simp only [Option.map_some']
        rw [if_neg hxt]
      · exact links_setNext_lastTwo L₀ h.next hl' (List.nodup_cons.mp hnd).2

theorem pdetach_consistent {s : PState} (h : Consistent s) :
    Consistent (pdetach s) := by
  obtain ⟨L, hl, ht⟩ := h
  unfold pdetach
  by_cases hht : s.head = s.tail
  · rw [if_pos hht]
    exact ⟨[], (links_nil_iff ..).mpr rfl, rfl⟩
  · rw [if_neg hht]
    cases L with
    | nil =>
        rw [links_nil_iff] at hl
        simp only [List.getLast?_nil] at ht
        rw [hl, ht] at hht
        exact absurd rfl hht
    | cons a L' =>
        cases L' with
        | nil =>
            obtain ⟨hc, _, _, _⟩ := (links_cons_iff ..).mp hl
            simp only [List.getLast?_singleton] at ht
            rw [hc, ht] at hht
            exact absurd rfl hht
        | cons b L'' =>
            have h2 : 2 ≤ (a :: b :: L'').length := by simp
            obtain ⟨L₀, t, lst, hL⟩ := exists_last_two h2
            rw [hL] at hl ht
            have hnd := links_nodup hl
            have hfuel : L₀.length ≤ s.hmap.length := by
              have hle := links_length_le hl
              simp [List.length_append] at hle
              omega
            have hgl : (L₀ ++ [t, lst]).getLast? = some lst := by
              have he : L₀ ++ [t, lst] = (L₀ ++ [t]) ++ [lst] := by simp
              rw [he, List.getLast?_concat]
            have hfind : pfindPrev s.hmap s.tail s.head s.hmap.length = some t := by
              rw [ht, hgl]
              exact pfindPrev_spec L₀ t lst s.head s.hmap.length hl hnd hfuel
            rw [hfind]
            exact ⟨L₀ ++ [t], links_setNext_lastTwo L₀ s.head hl hnd,
              (List.getLast?_concat _).symm⟩

theorem links_append_fresh {m : List (Nat × PHeader)} {a lst : Nat} {hdr : PHeader} :
    ∀ (L₀ : List Nat) (c : Option Nat),
      Links m c (L₀ ++ [lst]) = true →
      (L₀ ++ [lst]).Nodup →
      (∀ x ∈ L₀ ++ [lst], x ≠ a) →
      hdr.next = none →
      Links (setNext ((a, hdr) :: m) lst (some a)) c ((L₀ ++ [lst]) ++ [a]) = true
  | [], c, hl, hnd, hfr, hnx => by
      simp only [List.nil_append] at hl hnd hfr ⊢
      obtain ⟨hc, h, hg, hl'⟩ := (links_cons_iff ..).mp hl
      have hla : lst ≠ a := hfr lst (by simp)
      apply (links_cons_iff ..).mpr
      refine ⟨hc, { h with next := some a }, ?_, ?_⟩
      · rw [getH_setNext, getH_cons, if_neg (fun he => hla he.symm), hg]
        simp
      · apply (links_cons_iff ..).mpr
        refine ⟨rfl, hdr, ?_, ?_⟩
        · rw [getH_setNext, getH_cons, if_pos rfl]
          simp only [Option.map_some']
          rw [if_neg (fun he => hla he.symm)]
        · rw [hnx]
          exact (links_nil_iff ..).mpr rfl
  | x :: L₀, c, hl, hnd, hfr, hnx => by
      rw [List.cons_append] at hl hnd hfr
      rw [List.cons_append, List.cons_append]
      obtain ⟨hc, h, hg, hl'⟩ := (links_cons_iff ..).mp hl
      have hxa : x ≠ a := hfr x (by simp)
      have hxl : x ≠ lst := by
        have hx := (List.nodup_cons.mp hnd).1
        intro he; rw [he] at hx; exact hx (by simp)
      apply (links_cons_iff ..).mpr
      refine ⟨hc, h, ?_, ?_⟩
      · rw [getH_setNext, getH_cons, if_neg (fun he => hxa he.symm), hg]
        simp only [Option.map_some']
        rw [if_neg hxl]
      · exact links_append_fresh L₀ h.next hl' (List.nodup_cons.mp hnd).2
          (fun z hz => hfr z (by simp [hz])) hnx

theorem pappend_consistent {s : PState} {a : Nat} (sz : Nat) (h : Consistent s)
    (hfresh : ∀ e ∈ s.hmap, e.1 ≠ a) : Consistent (pappend s a sz) := by
  obtain ⟨L, hl, ht⟩ := h
  unfold pappend
  dsimp only
  cases L with
  | nil =>
      rw [links_nil_iff] at hl
      simp only [List.getLast?_nil] at ht
      rw [hl, ht]
      refine ⟨[a], ?_, by simp⟩
      apply (links_cons_iff ..).mpr
      refine ⟨by simp, ⟨sz, false, none⟩, ?_, (links_nil_iff ..).mpr rfl⟩
      show getH ((a, ⟨sz, false, none⟩) :: s.hmap) a = _
      rw [getH_cons, if_pos rfl]
  | cons y L' =>
      obtain ⟨hcy, g, hg, hl'⟩ := (links_cons_iff ..).mp hl
      obtain ⟨L₀, lst, hLc⟩ : ∃ L₀ lst, y :: L' = L₀ ++ [lst] := by
        rcases List.eq_nil_or_concat (y :: L') with he | ⟨L₀, lst, he⟩
        · cases he
        · exact ⟨L₀, lst, by rw [he, List.concat_eq_append]⟩
      rw [hLc] at hl ht
      have hnd := links_nodup hl
      rw [List.getLast?_concat] at ht
      have hhead : (if s.head = none then some a else s.head) = s.head := by
        rw [hcy]; simp
      rw [ht, hhead]
      have hfr : ∀ x ∈ L₀ ++ [lst], x ≠ a := by
        intro x hx
        have hkey := links_keys hl x hx
        obtain ⟨e, he, hex⟩ := List.mem_map.mp hkey
        rw [← hex]
        exact hfresh e he
      exact ⟨(L₀ ++ [lst]) ++ [a], links_append_fresh L₀ s.head hl hnd hfr rfl,
        (List.getLast?_concat _).symm⟩

theorem setFreeP_consistent {s : PState} {a : Nat} {v : Bool} (h : Consistent s) :
    Consistent { s with hmap := setFreeP s.hmap a v } := by
  obtain ⟨L, hl, ht⟩ := h
  exact ⟨L, by rw [links_setFreeP]; exact hl, ht⟩

theorem pfree_consistent {s : PState} (brk : Nat) (p : Option Nat)
    (h : Consistent s) : Consistent (pfree s brk p).1 := by
  unfold pfree
  cases p with
  | none => exact h
  | some pp =>
      dsimp only
      cases getH s.hmap (pp - headerSize) with
      | none => exact h
      | some hd =>
          dsimp only
          split
          · exact pdetach_consistent h
          · exact setFreeP_consistent h

theorem pmalloc_consistent {s : PState} (brk limit sz : Nat)
    (h : Consistent s) (hkb : KeysBelow s.hmap brk) :
    Consistent (pmalloc s brk limit sz).2.1 := by
  unfold pmalloc
  by_cases hsz : sz = 0
  · rw [if_pos hsz]; exact h
  · rw [if_neg hsz]
    cases pget_free_block s.hmap sz s.head s.hmap.length with
    | some c => exact setFreeP_consistent h
    | none =>
        dsimp only
        split
        · apply pappend_consistent sz h
          intro e he
          have h1 := hkb e he
          have h2 := headerSize_pos
          omega
        · exact h

theorem pcalloc_consistent {s : PState} (brk limit num nsize : Nat)
    (h : Consistent s) (hkb : KeysBelow s.hmap brk) :
    Consistent (pcalloc s brk limit num nsize).2.1 := by
  unfold pcalloc
  by_cases hz : num = 0 ∨ nsize = 0
  · rw [if_pos hz]; exact h
  · rw [if_neg hz]
    dsimp only
    split
    · exact h
    · exact pmalloc_consistent brk limit _ h hkb

theorem prealloc_consistent {s : PState} (brk limit : Nat) (p : Option Nat) (sz : Nat)
    (h : Consistent s) (hkb : KeysBelow s.hmap brk) :
    Consistent (prealloc s brk limit p sz).2.1 := by
  unfold prealloc
  cases p with
  | none => exact pmalloc_consistent brk limit sz h hkb
  | some pp =>
      dsimp only
      by_cases hsz : sz = 0
      · rw [if_pos hsz]; exact pmalloc_consistent brk limit sz h hkb
      · rw [if_neg hsz]
        cases getH s.hmap (pp - headerSize) with
        | none => exact h
        | some hd =>
            dsimp only
            split
            · exact h
            · rcases hm : pmalloc s brk limit sz with ⟨r, s', brk'⟩
              have hs' : Consistent s' := by
                have hc := pmalloc_consistent brk limit sz h hkb
                rw [hm] at hc
                exact hc
              cases r with
              | none => exact hs'
              | some rr => exact pfree_consistent brk' (some pp) hs'

/-- C10: every public operation preserves the head/tail consistency of the
pointer registry: after the call, `head == NULL` iff `tail == NULL`, `tail`
is reachable from `head` along `next` links (it is the last node of the
chain), and on a non-empty registry `tail->next == NULL`.  The hypothesis
asks the same of the pre-state plus that all header cells lie below the
break (fresh carves happen at the break, so their address is fresh). -/
theorem C10_head_tail_consistency (s : PState) (brk limit n num nsize m : Nat)
    (p q : Option Nat)
    (hc : Consistent s) (hkb : KeysBelow s.hmap brk) :
    (Consistent (pmalloc s brk limit n).2.1 ∧
     HeadTailIff (pmalloc s brk limit n).2.1 ∧ TailOk (pmalloc s brk limit n).2.1) ∧
    (Consistent (pfree s brk p).1 ∧
     HeadTailIff (pfree s brk p).1 ∧ TailOk (pfree s brk p).1) ∧
    (Consistent (pcalloc s brk limit num nsize).2.1 ∧
     HeadTailIff (pcalloc s brk limit num nsize).2.1 ∧
     TailOk (pcalloc s brk limit num nsize).2.1) ∧
    (Consistent (prealloc s brk limit q m).2.1 ∧
     HeadTailIff (prealloc s brk limit q m).2.1 ∧
     TailOk (prealloc s brk limit q m).2.1) := by
  have h₁ := pmalloc_consistent brk limit n hc hkb
  have h₂ := pfree_consistent brk p hc
  have h₃ := pcalloc_consistent brk limit num nsize hc hkb
  have h₄ := prealloc_consistent brk limit q m hc hkb
  exact ⟨⟨h₁, (consistent_props h₁).1, (consistent_props h₁).2⟩,
         ⟨h₂, (consistent_props h₂).1, (consistent_props h₂).2⟩,
         ⟨h₃, (consistent_props h₃).1, (consistent_props h₃).2⟩,
         ⟨h₄, (consistent_props h₄).1, (consistent_props h₄).2⟩⟩

/-- A two-block registry: headers at 1000 and 1088, chained in order. -/
def pW : PState :=
  ⟨[(1000, ⟨64, false, some 1088⟩), (1088, ⟨128, false, none⟩)],
   some 1000, some 1088⟩

theorem C10_witness :
    Consistent pW ∧ KeysBelow pW.hmap 1240 ∧
    ((Consistent (pmalloc pW 1240 2000 40).2.1 ∧
      HeadTailIff (pmalloc pW 1240 2000 40).2.1 ∧ TailOk (pmalloc pW 1240 2000 40).2.1) ∧
     (Consistent (pfree pW 1240 (some 1112)).1 ∧
      HeadTailIff (pfree pW 1240 (some 1112)).1 ∧ TailOk (pfree pW 1240 (some 1112)).1) ∧
     (Consistent (pcalloc pW 1240 2000 3 5).2.1 ∧
      HeadTailIff (pcalloc pW 1240 2000 3 5).2.1 ∧
      TailOk (pcalloc pW 1240 2000 3 5).2.1) ∧
     (Consistent (prealloc pW 1240 2000 (some 1024) 80).2.1 ∧
      HeadTailIff (prealloc pW 1240 2000 (some 1024) 80).2.1 ∧
      TailOk (prealloc pW 1240 2000 (some 1024) 80).2.1)) :=
  ⟨⟨[1000, 1088], by decide, by decide⟩,
   by decide,
   C10_head_tail_consistency pW 1240 2000 40 3 5 80 (some 1112) (some 1024)
     ⟨[1000, 1088], by decide, by decide⟩ (by decide)⟩

end Ptr

end Memalloc
